import Mathlib

/-!
Verification of the Stock-Notifier repository against its specification.

The definitions below are a shallow embedding of the Python sources:
  * `src/app/core.py`   — orchestrator `run_once`, market-hours gate, the
    per-ticker alert state machine (inline in `run_once`), URL resolution;
  * `src/app/market.py` — `get_open_and_last` quote resolver;
  * `src/app/news.py`   — `fetch_headlines`, `filter_titles`;
  * `src/app/ntfy.py`   — `notify_ntfy`.

Prices and percentages are modelled as rationals (`ℚ`); Python floats are
treated as exact arithmetic.  Network collaborators (yfinance, requests,
feedparser) are modelled as oracle parameters supplying the data each call
would return; an `Except Unit` value models a call that may raise.
-/

namespace StockNotifier

/-- Persisted per-ticker alert direction, the values `"none" | "up" | "down"`
of the state JSON (`src/app/state.py`, used in `core.run_once`). -/
inductive Dir
  | none
  | up
  | down
deriving DecidableEq, Repr

/-- Direction classification from `core.run_once` line 215:
`direction = "up" if pct >= threshold_pct else "down" if pct <= -threshold_pct else "none"`. -/
def classify (th pct : ℚ) : Dir :=
  if th ≤ pct then Dir.up
  else if pct ≤ -th then Dir.down
  else Dir.none

/-- Observable outcome of one per-ticker state-machine step:
an alert was fired with a direction, the state was silently reset,
or nothing happened. -/
inductive Ev
  | fired (d : Dir)
  | reset
  | noop
deriving DecidableEq, Repr

/-- One step of the per-ticker alert state machine, the branch structure of
`core.run_once` lines 214-293: fire and latch when the classified direction
is non-none and differs from `prev`; silently reset to none when the
direction is none but `prev` is not; otherwise leave the state unchanged. -/
def stepEv (th : ℚ) (prev : Dir) (pct : ℚ) : Dir × Ev :=
  let direction := classify th pct
  if direction ≠ Dir.none ∧ direction ≠ prev then
    (direction, Ev.fired direction)
  else if direction = Dir.none then
    (if prev ≠ Dir.none then (Dir.none, Ev.reset) else (prev, Ev.noop))
  else
    (prev, Ev.noop)

/-- Run the state machine over a sequence of percentage deltas (one cycle
per list element, fixed threshold), returning the event of each cycle. -/
def runSeq (th : ℚ) : Dir → List ℚ → List Ev
  | _, [] => []
  | s, p :: ps =>
    let r := stepEv th s p
    r.2 :: runSeq th r.1 ps

/-- The latch a state represents: `some d` when an alert in direction `d`
is still latched, `none` when the ticker is eligible to alert. -/
def toLatch : Dir → Option Dir
  | Dir.none => Option.none
  | d => some d

/-- Checker for the de-bounce discipline on an event sequence: a fired alert
must not repeat the currently latched direction, firing latches, and only a
reset clears the latch. -/
def checkSeq : Option Dir → List Ev → Bool
  | _, [] => true
  | latch, Ev.fired d :: r => if latch = some d then false else checkSeq (some d) r
  | _, Ev.reset :: r => checkSeq Option.none r
  | latch, Ev.noop :: r => checkSeq latch r

/-- The latch after processing a sequence of events. -/
def latchAfter : Option Dir → List Ev → Option Dir
  | latch, [] => latch
  | _, Ev.fired d :: r => latchAfter (some d) r
  | _, Ev.reset :: r => latchAfter Option.none r
  | latch, Ev.noop :: r => latchAfter latch r

/-- Whether an event is not a fired alert. -/
def notFired : Ev → Bool
  | Ev.fired _ => false
  | _ => true

/-- Market-hours configuration (`market_hours` section of the config), with
the defaults of `cfg_mh.get` already resolved. -/
structure MarketHoursCfg where
  enabled : Bool
  monFriOnly : Bool
  startHour : Int
  endHour : Int

/-- The current local time as observed by `core.is_market_hours`:
weekday (`0` = Monday, as in Python `datetime.weekday()`) and hour. -/
structure Clock where
  weekday : Nat
  hour : Int

/-- `core.is_market_hours`: inside the window unless the gate is enabled and
either the weekday gate or the hour window excludes the current time. -/
def is_market_hours (cfg : MarketHoursCfg) (n : Clock) : Bool :=
  if !cfg.enabled then true
  else if cfg.monFriOnly && decide (5 ≤ n.weekday) then false
  else decide (cfg.startHour ≤ n.hour) && decide (n.hour < cfg.endHour)

/-- Test-mode configuration (`test` section of the config). -/
structure TestCfg where
  enabled : Bool
  bypassMarketHours : Bool
  forceDeltaPct : Option ℚ
  dryRun : Bool

/-- Lookup in the persisted state dict with default `"none"`:
`state.get(tk, "none")` in `core.run_once`. -/
def dictGet (st : List (String × Dir)) (k : String) : Dir :=
  match st.find? (fun p => p.1 == k) with
  | some p => p.2
  | Option.none => Dir.none

/-- Python dict assignment `state[tk] = v`: replace the entry when the key
is present, append it otherwise. -/
def dictSet (st : List (String × Dir)) (k : String) (v : Dir) : List (String × Dir) :=
  if st.any (fun p => p.1 == k) then
    st.map (fun p => if p.1 == k then (k, v) else p)
  else st ++ [(k, v)]

/-- Side effects of one cycle that the claims talk about: reading the state
file, one quote resolution, one dispatched notification (with the number of
outbound push requests it made), one state-file write. Logging is elided. -/
inductive Eff
  | loadState
  | fetch (tk : String)
  | notify (tk : String) (d : Dir) (requests : Nat)
  | saveState (st : List (String × Dir))
deriving DecidableEq, Repr

/-- The percentage delta actually classified, `core.run_once` lines 203-210:
the computed delta vs. open, overridden by `test.force_delta_pct` when test
mode is enabled and a forced delta is configured. -/
def effPct (test : TestCfg) (openPx lastPx : ℚ) : ℚ :=
  let pct := (lastPx - openPx) / openPx * 100
  if test.enabled then
    match test.forceDeltaPct with
    | some f => f
    | Option.none => pct
  else pct

/-- `ntfy.notify_ntfy`, modelled by its outward behaviour: `transport` is the
outcome of the single `requests.post` (final status, or a raised
`requests.RequestException`); the returned value counts the outbound requests
performed.  A dry run performs none; otherwise exactly one request is made and
both a transport error and the `HTTPError` from `raise_for_status` (a
`RequestException`) are caught by the function's `except` clause, so the
function returns normally in every case — the `.error` outcome is never
produced. -/
def notify_ntfy (transport : Except Unit Int) (dryRun : Bool) : Except Unit Nat :=
  if dryRun then Except.ok 0
  else
    match transport with
    | Except.ok _status => Except.ok 1
    | Except.error _ => Except.ok 1

/-- Processing of one ticker inside the `for tk in tickers` loop of
`core.run_once` (lines 197-297), under the per-ticker `try/except`:
a quote-resolution error or a zero open price raises, is caught, and leaves
the state untouched; otherwise the delta is classified and the state machine
branch runs (news enrichment only shapes the notification text and is elided
from the orchestrator model).  Returns the updated state dict and the
effects performed for this ticker. -/
def processTicker (fetch : String → Except Unit (ℚ × ℚ))
    (transport : String → Except Unit Int)
    (th : ℚ) (test : TestCfg) (state : List (String × Dir)) (tk : String) :
    List (String × Dir) × List Eff :=
  match fetch tk with
  | Except.error _ => (state, [Eff.fetch tk])
  | Except.ok (openPx, lastPx) =>
    if openPx = 0 then (state, [Eff.fetch tk])
    else
      let pct := effPct test openPx lastPx
      let prev := dictGet state tk
      match stepEv th prev pct with
      | (s', Ev.fired d) =>
        match notify_ntfy (transport tk) test.dryRun with
        | Except.error _ => (state, [Eff.fetch tk])
        | Except.ok n =>
          let state' := dictSet state tk s'
          (state', [Eff.fetch tk, Eff.notify tk d n, Eff.saveState state'])
      | (s', Ev.reset) =>
        let state' := dictSet state tk s'
        (state', [Eff.fetch tk, Eff.saveState state'])
      | (_, Ev.noop) => (state, [Eff.fetch tk])

/-- The ticker loop of `core.run_once`: threads the state dict through the
tickers in caller-supplied order and concatenates their effects. -/
def goTickers (fetch : String → Except Unit (ℚ × ℚ))
    (transport : String → Except Unit Int)
    (th : ℚ) (test : TestCfg) :
    List (String × Dir) → List String → List (String × Dir) × List Eff
  | state, [] => (state, [])
  | state, tk :: rest =>
    let r1 := processTicker fetch transport th test state tk
    let r2 := goTickers fetch transport th test r1.1 rest
    (r2.1, r1.2 ++ r2.2)

/-- `core.run_once`: the market-hours gate (with the test-mode bypass)
guards everything; inside the window the state file is loaded and the
tickers are processed. `state0` is the content `load_state` would return.
The value is the list of effects of the cycle. -/
def run_once (fetch : String → Except Unit (ℚ × ℚ))
    (transport : String → Except Unit Int)
    (tickers : List String) (th : ℚ)
    (mh : MarketHoursCfg) (now : Clock) (test : TestCfg)
    (state0 : List (String × Dir)) : List Eff :=
  let within0 := is_market_hours mh now
  let within := if test.enabled && test.bypassMarketHours then true else within0
  if within then
    Eff.loadState :: (goTickers fetch transport th test state0 tickers).2
  else []

/-- The dispatched notifications recorded in an effect list. -/
def alertsOf (effs : List Eff) : List (String × Dir) :=
  effs.filterMap (fun e =>
    match e with
    | Eff.notify tk d _ => some (tk, d)
    | _ => Option.none)

/-- The state-file writes recorded in an effect list. -/
def savesOf (effs : List Eff) : List (List (String × Dir)) :=
  effs.filterMap (fun e =>
    match e with
    | Eff.saveState st => some st
    | _ => Option.none)

/-- One row of the price DataFrame returned by `yf.Ticker(...).history`:
the Open and Close columns, the only ones `market.get_open_and_last` reads. -/
structure Bar where
  openPx : ℚ
  closePx : ℚ
deriving DecidableEq, Repr

/-- `float(df.iloc[0]["Open"])` of a non-empty DataFrame. -/
def firstOpen (df : List Bar) : ℚ := (df.headD ⟨0, 0⟩).openPx

/-- `float(df.iloc[-1]["Close"])` of a non-empty DataFrame. -/
def lastClose (df : List Bar) : ℚ := (df.getLastD ⟨0, 0⟩).closePx

/-- `float(df.iloc[-1]["Open"])` of a non-empty DataFrame (daily fallback). -/
def lastOpen (df : List Bar) : ℚ := (df.getLastD ⟨0, 0⟩).openPx

/-- The intraday request plan of `market.get_open_and_last`: intervals
`("1m", "5m", "15m")`, finest first, up to 2 attempts each, flattened in
request order. -/
def intradayPlan : List String := ["1m", "1m", "5m", "5m", "15m", "15m"]

/-- The intraday loop of `market.get_open_and_last`: issue the planned calls
in order (`resp i` is the DataFrame the `i`-th call returns); stop at the
first non-empty response with `(iloc[0].Open, iloc[-1].Close)`.  Returns the
result (if any) and the trace of intervals actually requested.  The 0.4 s
sleep between attempts is elided. -/
def runCalls (resp : Nat → List Bar) : List String → Nat → Option (ℚ × ℚ) × List String
  | [], _ => (Option.none, [])
  | iv :: rest, i =>
    if resp i = [] then
      let r := runCalls resp rest (i + 1)
      (r.1, iv :: r.2)
    else
      (some (firstOpen (resp i), lastClose (resp i)), [iv])

/-- `market.get_open_and_last`: try the intraday plan (calls 0-5); if every
response was empty, issue the single daily request (call 6) and take Open and
Close of its last row; raise `RuntimeError` (modelled `Except.error`) only
when that is empty too.  The second component is the trace of requested
intervals. -/
def get_open_and_last (resp : Nat → List Bar) : Except Unit (ℚ × ℚ) × List String :=
  match runCalls resp intradayPlan 0 with
  | (some pr, tr) => (Except.ok pr, tr)
  | (Option.none, tr) =>
    if resp 6 = [] then (Except.error (), tr ++ ["1d"])
    else (Except.ok (lastOpen (resp 6), lastClose (resp 6)), tr ++ ["1d"])

/-- Concrete quote-call oracle: only the third intraday call (5m, first
attempt) returns data. -/
def respW : Nat → List Bar := fun i => if i = 2 then [⟨5, 7⟩, ⟨6, 8⟩] else []

/-- Does `needle` occur at the start of `hay`?  (Executable model of string
prefix testing, used to model Python's `in` and `startswith`.) -/
def leadsWith : List Char → List Char → Bool
  | [], _ => true
  | _ :: _, [] => false
  | a :: as, b :: bs => a == b && leadsWith as bs

/-- Does `needle` occur anywhere in `hay`?  Python's substring operator
`needle in hay`. -/
def hasSub : List Char → List Char → Bool
  | [], needle => leadsWith needle []
  | h :: t, needle => leadsWith needle (h :: t) || hasSub t needle

/-- Python `needle in hay` on strings. -/
def strContains (hay needle : String) : Bool := hasSub hay.toList needle.toList

/-- Python `str.lower()` (ASCII case folding, which covers the keyword and
title data this program compares). -/
def lower (s : String) : String := String.mk (s.toList.map Char.toLower)

/-- Python whitespace recognized by `str.strip()` (the characters occurring
in feed data). -/
def isSpace (c : Char) : Bool := c == ' ' || c == '\t' || c == '\n' || c == '\r'

/-- Python `str.strip()`. -/
def strip (s : String) : String :=
  String.mk (((s.toList.dropWhile isSpace).reverse.dropWhile isSpace).reverse)

/-- A parsed feed entry as `news.fetch_headlines` reads it: `getattr` title
and link (empty string when absent), resolved source, and the
`published_parsed` timestamp as UTC seconds, `none` when absent or not
parseable. -/
structure Entry where
  title : String
  link : String
  source : String
  pub : Option Int
deriving DecidableEq, Repr

/-- A news item produced by `news.fetch_headlines`; `published` is the
parsed timestamp, `none` standing for the empty string the code stores when
the entry had no parseable publish time. -/
structure Item where
  title : String
  source : String
  link : String
  published : Option Int
deriving DecidableEq, Repr

/-- The entry loop of `news.fetch_headlines` (lines 111-141), with `out` the
accumulator: an entry whose parsed publish time is older than `cutoff` is
skipped by `continue` (bypassing the break check); otherwise the item is
appended when title and link are non-empty after stripping, and the loop
breaks once `len(out) >= limit`. -/
def goEntries (limit cutoff : Int) : List Entry → List Item → List Item
  | [], out => out
  | e :: rest, out =>
    match e.pub with
    | some t =>
      if t < cutoff then goEntries limit cutoff rest out
      else
        let out' := if strip e.title ≠ "" ∧ strip e.link ≠ "" then
            out ++ [⟨strip e.title, e.source, strip e.link, some t⟩] else out
        if limit ≤ (out'.length : Int) then out' else goEntries limit cutoff rest out'
    | Option.none =>
      let out' := if strip e.title ≠ "" ∧ strip e.link ≠ "" then
          out ++ [⟨strip e.title, e.source, strip e.link, Option.none⟩] else out
      if limit ≤ (out'.length : Int) then out' else goEntries limit cutoff rest out'

/-- `news.fetch_headlines`: parse the feed (`entries` is what the parser
produced — empty on a parse failure), compute the cutoff
`now - lookback_hours`, and run the entry loop over the first
`max(10, limit * 3)` entries. -/
def fetch_headlines (entries : List Entry) (limit currentTime lookbackHours : Int) :
    List Item :=
  goEntries limit (currentTime - lookbackHours * 3600)
    (entries.take (max 10 (limit * 3)).toNat) []

/-- The per-entry decision of the loop in `news.fetch_headlines`, as a
function: `none` when the entry is skipped (too old, or missing title/link),
otherwise the item it contributes. -/
def toItem (cutoff : Int) (e : Entry) : Option Item :=
  match e.pub with
  | some t =>
    if t < cutoff then Option.none
    else if strip e.title ≠ "" ∧ strip e.link ≠ "" then
      some ⟨strip e.title, e.source, strip e.link, some t⟩
    else Option.none
  | Option.none =>
    if strip e.title ≠ "" ∧ strip e.link ≠ "" then
      some ⟨strip e.title, e.source, strip e.link, Option.none⟩
    else Option.none

/-- `news.filter_titles`: pass-through on an empty keyword iterable;
otherwise keep the items whose lowercased title contains one of the
lowercased non-empty keywords (`req = [k.lower() for k in required_keywords
if k]`). -/
def filter_titles (items : List Item) (required_keywords : List String) : List Item :=
  if required_keywords = [] then items
  else
    let req := (required_keywords.filter (fun k => k ≠ "")).map lower
    items.filter (fun it => req.any (fun k => strContains (lower it.title) k))

/-- `core._ensure_https`: prefix a missing scheme with `https://`. -/
def ensure_https (u : String) : String :=
  if u = "" then u
  else if leadsWith "http://".toList u.toList || leadsWith "https://".toList u.toList then u
  else "https://" ++ u

/-- The characters after the `http(s)://` scheme, if present (model of
`urllib.parse.urlparse` on the http(s) URLs this code builds). -/
def afterSchemeL (u : List Char) : List Char :=
  if leadsWith "https://".toList u then u.drop 8
  else if leadsWith "http://".toList u then u.drop 7
  else u

/-- `urlparse(u).netloc` for an http(s) URL: the characters between the
scheme and the first `/`, `?` or `#`. -/
def netlocOf (u : String) : List Char :=
  (afterSchemeL u.toList).takeWhile (fun c => c != '/' && c != '?' && c != '#')

/-- `urlparse(u).query` for an http(s) URL: the characters after the first
`?` (and before any `#`). -/
def queryOf (u : String) : List Char :=
  (((afterSchemeL u.toList).takeWhile (fun c => c != '#')).dropWhile
    (fun c => c != '?')).drop 1

/-- Split a character list at every occurrence of `sep`. -/
def splitOnChar (sep : Char) : List Char → List (List Char)
  | [] => [[]]
  | c :: rest =>
    match splitOnChar sep rest with
    | [] => [[c]]
    | h :: t => if c == sep then [] :: h :: t else (c :: h) :: t

/-- Re-join with `=` what `splitOnChar` cut apart: the value of a query
parameter keeps any `=` after the first one, as Python's `partition` does. -/
def joinEq : List (List Char) → List Char
  | [] => []
  | [x] => x
  | x :: y :: t => x ++ '=' :: joinEq (y :: t)

/-- `parse_qs(query).get("url", [None])[0]`: first non-blank value of the
`url` query parameter (percent-decoding elided — identity on the already
decoded values this code consumes). -/
def parse_qs_first_url (q : List Char) : Option (List Char) :=
  ((splitOnChar '&' q).filterMap (fun p =>
    match splitOnChar '=' p with
    | [] => Option.none
    | [_] => Option.none
    | k :: v1 :: vrest =>
      if k = "url".toList ∧ joinEq (v1 :: vrest) ≠ [] then
        some (joinEq (v1 :: vrest))
      else Option.none)).head?

/-- Outcomes of the two network probes `core._extract_original_url` can
make: the HEAD request (final URL after redirects together with its status
code) and the fallback GET request (its final URL); `Except.error` models a
raised `requests.RequestException`. -/
structure Probe where
  headResp : Except Unit (String × Int)
  getResp : Except Unit String

/-- The aggregator domain `core._extract_original_url` looks for in the
netloc. -/
def google_news_domain : List Char := "news.google.com".toList

/-- `core._extract_original_url`: normalize the scheme; on a Google-News
link prefer the embedded `url` parameter, otherwise probe with HEAD and — if
the final URL is unchanged and the method was rejected (403/405) — with GET;
any `requests.RequestException` is swallowed and the normalized link is
returned (the surrounding `try/except Exception` likewise returns the link,
so the function is total). -/
def extract_original_url (pr : Probe) (resolve_redirects : Bool) (link : String) :
    String :=
  let link2 := ensure_https link
  if hasSub (netlocOf link2) google_news_domain then
    match parse_qs_first_url (queryOf link2) with
    | some u => ensure_https (String.mk u)
    | Option.none =>
      if resolve_redirects then
        match pr.headResp with
        | Except.error _ => link2
        | Except.ok (rurl, status) =>
          if rurl ≠ "" ∧ rurl ≠ link2 then ensure_https rurl
          else if status = 403 ∨ status = 405 then
            match pr.getResp with
            | Except.error _ => link2
            | Except.ok gurl =>
              if gurl ≠ "" ∧ gurl ≠ link2 then ensure_https gurl else link2
          else link2
      else link2
  else link2

/-- Concrete feed entry with title and link but no parseable publish time. -/
def entryNoTimeW : Entry := ⟨"t", "l", "s", Option.none⟩

/-- Concrete news item with title `"a"`. -/
def itemAW : Item := ⟨"a", "", "", Option.none⟩

/-- Concrete probe whose HEAD succeeds with an unchanged URL. -/
def probeW : Probe := ⟨Except.ok ("", 200), Except.ok ""⟩

/-- Concrete Google-News link wrapping an original article URL. -/
def gLinkW : String := "https://news.google.com/articles?url=https://example.org/a"

/-- Concrete quote oracle: every ticker resolves to open 100, last 104. -/
def fetchOkW : String → Except Unit (ℚ × ℚ) := fun _ => Except.ok (100, 104)

/-- Concrete quote oracle whose ticker `"Z"` resolves with a zero open. -/
def fetchZeroW : String → Except Unit (ℚ × ℚ) := fun tk =>
  if tk = "Z" then Except.ok (0, 5) else Except.ok (100, 104)

/-- Concrete push transport that always succeeds with status 200. -/
def trOkW : String → Except Unit Int := fun _ => Except.ok 200

/-- Concrete push transport that always raises a transport error. -/
def trFailW : String → Except Unit Int := fun _ => Except.error ()

/-- Test-mode configuration with everything off. -/
def testOffW : TestCfg := ⟨false, false, Option.none, false⟩

/-- Test-mode configuration forcing a +5% delta, no dry run, no bypass. -/
def testForceW : TestCfg := ⟨true, false, some 5, false⟩

/-- Concrete market-hours window: Monday-Friday, 8-22. -/
def mhW : MarketHoursCfg := ⟨true, true, 8, 22⟩

/-- A Saturday 10:00 clock, outside the window of `mhW`. -/
def satW : Clock := ⟨5, 10⟩

end StockNotifier

namespace StockNotifier

lemma stepEv_check (th : ℚ) (s : Dir) (p : ℚ) (r : List Ev) :
    checkSeq (toLatch s) ((stepEv th s p).2 :: r)
      = checkSeq (toLatch (stepEv th s p).1) r := by
  unfold stepEv
  cases hc : classify th p <;> cases s <;>
    simp [checkSeq, toLatch]

lemma run_check (th : ℚ) : ∀ (ps : List ℚ) (s : Dir),
    checkSeq (toLatch s) (runSeq th s ps) = true := by
  intro ps
  induction ps with
  | nil => intro s; simp [runSeq, checkSeq]
  | cons p ps ih =>
    intro s
    simp only [runSeq]
    rw [stepEv_check]
    exact ih _

lemma checkSeq_append (l1 : List Ev) : ∀ (latch : Option Dir) (l2 : List Ev),
    checkSeq latch (l1 ++ l2) = true → checkSeq (latchAfter latch l1) l2 = true := by
  induction l1 with
  | nil => intro latch l2 h; simpa [latchAfter] using h
  | cons e t ih =>
    intro latch l2 h
    cases e with
    | fired d =>
      simp only [List.cons_append, checkSeq] at h
      by_cases hl : latch = some d
      · simp [hl] at h
      · simp only [latchAfter]
        exact ih _ _ (by simpa [hl] using h)
    | reset =>
      simp only [List.cons_append, checkSeq] at h
      simp only [latchAfter]
      exact ih _ _ h
    | noop =>
      simp only [List.cons_append, checkSeq] at h
      simp only [latchAfter]
      exact ih _ _ h

lemma latchAfter_noops (mid : List Ev) : ∀ (latch : Option Dir),
    (∀ e ∈ mid, notFired e = true) → Ev.reset ∉ mid →
    latchAfter latch mid = latch := by
  induction mid with
  | nil => intro latch _ _; rfl
  | cons e t ih =>
    intro latch hnf hnr
    cases e with
    | fired d =>
      have h := hnf (Ev.fired d) (by simp)
      simp [notFired] at h
    | reset => exact absurd (by simp) hnr
    | noop =>
      simp only [latchAfter]
      exact ih _ (fun x hx => hnf x (by simp [hx])) (fun hx => hnr (by simp [hx]))

/-- C1: the per-ticker alert transition behaves exactly as specified: with a
positive threshold, the classification is `up` iff `pct ≥ threshold`, `down`
iff `pct ≤ -threshold` (both boundaries inclusive) and `none` strictly in
between; an alert fires and the state latches to the new direction exactly
when the classification is non-none and differs from the previous state
(including a direct up/down flip); a none classification with a non-none
previous state resets silently; and in the remaining two cases neither the
state nor any alert output changes. -/
theorem alert_transition_spec (th pct : ℚ) (prev : Dir) (hth : 0 < th) :
    (classify th pct = Dir.up ↔ th ≤ pct) ∧
    (classify th pct = Dir.down ↔ pct ≤ -th) ∧
    (classify th pct = Dir.none ↔ (-th < pct ∧ pct < th)) ∧
    (classify th pct ≠ Dir.none → classify th pct ≠ prev →
      stepEv th prev pct = (classify th pct, Ev.fired (classify th pct))) ∧
    (classify th pct = Dir.none → prev ≠ Dir.none →
      stepEv th prev pct = (Dir.none, Ev.reset)) ∧
    (classify th pct = Dir.none → prev = Dir.none →
      stepEv th prev pct = (prev, Ev.noop)) ∧
    (classify th pct = prev → prev ≠ Dir.none →
      stepEv th prev pct = (prev, Ev.noop)) := by
  refine ⟨?_, ?_, ?_, ?_, ?_, ?_, ?_⟩
  · unfold classify
    split_ifs with h1 h2 <;> simp_all
  · unfold classify
    split_ifs with h1 h2 <;> simp_all <;> linarith
  · unfold classify
    split_ifs with h1 h2 <;> simp_all <;> constructor <;> intro h <;> linarith
  · intro h1 h2
    unfold stepEv
    simp [h1, h2]
  · intro h1 h2
    unfold stepEv
    simp [h1, h2]
  · intro h1 h2
    unfold stepEv
    simp [h1, h2]
  · intro h1 h2
    unfold stepEv
    have h3 : classify th pct ≠ Dir.none := by rw [h1]; exact h2
    simp [h1, h3]

/-- Witness for C1 at threshold 1, delta 2, previous state none. -/
theorem alert_transition_spec_witness :
    (0:ℚ) < 1 ∧
    ((classify 1 2 = Dir.up ↔ (1:ℚ) ≤ 2) ∧
     (classify 1 2 = Dir.down ↔ (2:ℚ) ≤ -1) ∧
     (classify 1 2 = Dir.none ↔ ((-1:ℚ) < 2 ∧ (2:ℚ) < 1)) ∧
     (classify 1 2 ≠ Dir.none → classify 1 2 ≠ Dir.none →
       stepEv 1 Dir.none 2 = (classify 1 2, Ev.fired (classify 1 2))) ∧
     (classify 1 2 = Dir.none → Dir.none ≠ Dir.none →
       stepEv 1 Dir.none 2 = (Dir.none, Ev.reset)) ∧
     (classify 1 2 = Dir.none → Dir.none = Dir.none →
       stepEv 1 Dir.none 2 = (Dir.none, Ev.noop)) ∧
     (classify 1 2 = Dir.none → Dir.none ≠ Dir.none →
       stepEv 1 Dir.none 2 = (Dir.none, Ev.noop))) :=
  ⟨by norm_num, alert_transition_spec 1 2 Dir.none (by norm_num)⟩

/-- C2: latch invariant of the step relation — over any sequence of cycles
from any starting state, two fired alerts with no further fired alert between
them never have the same direction unless a reset event occurred between
them. -/
theorem alert_latch_invariant (th : ℚ) (hth : 0 < th) (s : Dir) (ps : List ℚ)
    (pre mid post : List Ev) (d : Dir)
    (hsplit : runSeq th s ps = pre ++ Ev.fired d :: (mid ++ Ev.fired d :: post))
    (hmid : ∀ e ∈ mid, notFired e = true) :
    Ev.reset ∈ mid := by
  by_contra hres
  have h1 := run_check th ps s
  rw [hsplit] at h1
  have h2 := checkSeq_append pre (toLatch s) _ h1
  have h3 : checkSeq (some d) (mid ++ Ev.fired d :: post) = true := by
    by_cases hl : latchAfter (toLatch s) pre = some d
    · rw [hl] at h2
      simp [checkSeq] at h2
    · simpa [checkSeq, hl] using h2
  have h4 := checkSeq_append mid (some d) _ h3
  rw [latchAfter_noops mid _ hmid hres] at h4
  simp [checkSeq] at h4

/-- Witness for C2: threshold 1, deltas `[2, 0, 2]` from state none produce
fired-up, reset, fired-up; the reset lies between the two fired alerts. -/
theorem alert_latch_invariant_witness :
    (0:ℚ) < 1 ∧
    runSeq 1 Dir.none [2, 0, 2]
      = [] ++ Ev.fired Dir.up :: ([Ev.reset] ++ Ev.fired Dir.up :: []) ∧
    (∀ e ∈ [Ev.reset], notFired e = true) ∧
    Ev.reset ∈ [Ev.reset] :=
  ⟨by norm_num, by decide, by decide,
    alert_latch_invariant 1 (by norm_num) Dir.none [2, 0, 2]
      [] [Ev.reset] [] Dir.up (by decide) (by decide)⟩

lemma alertsOf_append (u v : List Eff) :
    alertsOf (u ++ v) = alertsOf u ++ alertsOf v := by
  simp [alertsOf]

lemma savesOf_append (u v : List Eff) :
    savesOf (u ++ v) = savesOf u ++ savesOf v := by
  simp [savesOf]

lemma find?_map_set (k : String) (v : Dir) :
    ∀ (st : List (String × Dir)), st.any (fun p => p.1 == k) = true →
      (st.map (fun p => if p.1 == k then (k, v) else p)).find? (fun p => p.1 == k)
        = some (k, v) := by
  intro st
  induction st with
  | nil => simp
  | cons p t ih =>
    intro h
    by_cases hp : (p.1 == k) = true
    · simp only [List.map_cons, if_pos hp]
      exact List.find?_cons_of_pos _ (by simp)
    · simp only [List.any_cons, hp, Bool.false_or] at h
      simp only [List.map_cons, if_neg hp]
      rw [@List.find?_cons_of_neg _ (fun q => q.1 == k) p _ hp]
      exact ih h

lemma find?_append_new (k : String) (v : Dir) :
    ∀ (st : List (String × Dir)), st.any (fun p => p.1 == k) = false →
      (st ++ [(k, v)]).find? (fun p => p.1 == k) = some (k, v) := by
  intro st
  induction st with
  | nil => simp
  | cons p t ih =>
    intro h
    simp only [List.any_cons, Bool.or_eq_false_iff] at h
    rw [List.cons_append,
        @List.find?_cons_of_neg _ (fun q => q.1 == k) p _ (by simp [h.1])]
    exact ih h.2

lemma dictGet_dictSet (st : List (String × Dir)) (k : String) (v : Dir) :
    dictGet (dictSet st k v) k = v := by
  unfold dictGet dictSet
  by_cases h : st.any (fun p => p.1 == k) = true
  · rw [if_pos h, find?_map_set k v st h]
  · rw [if_neg h, find?_append_new k v st (by rwa [Bool.not_eq_true] at h)]

/-- C4: a ticker whose quote resolution raises or resolves with a zero open
price is processed to no effect — no alert, no state change, no state write —
and removing it from the cycle changes nothing for the other tickers: the
final state, the dispatched alerts and the state-file writes of the cycle are
identical; the error never terminates the run. -/
theorem zero_open_isolation (fetch : String → Except Unit (ℚ × ℚ))
    (transport : String → Except Unit Int) (th : ℚ) (test : TestCfg) (tk : String)
    (hfail : fetch tk = Except.error () ∨ ∃ l, fetch tk = Except.ok (0, l)) :
    (∀ state, processTicker fetch transport th test state tk = (state, [Eff.fetch tk])) ∧
    (∀ state l1 l2,
      (goTickers fetch transport th test state (l1 ++ tk :: l2)).1
        = (goTickers fetch transport th test state (l1 ++ l2)).1 ∧
      alertsOf (goTickers fetch transport th test state (l1 ++ tk :: l2)).2
        = alertsOf (goTickers fetch transport th test state (l1 ++ l2)).2 ∧
      savesOf (goTickers fetch transport th test state (l1 ++ tk :: l2)).2
        = savesOf (goTickers fetch transport th test state (l1 ++ l2)).2) := by
  have hpt : ∀ state, processTicker fetch transport th test state tk
      = (state, [Eff.fetch tk]) := by
    intro state
    rcases hfail with h | ⟨l, h⟩
    · simp [processTicker, h]
    · simp [processTicker, h]
  refine ⟨hpt, ?_⟩
  intro state l1 l2
  induction l1 generalizing state with
  | nil =>
    refine ⟨?_, ?_, ?_⟩ <;>
      simp [goTickers, hpt state, alertsOf_append, savesOf_append, alertsOf, savesOf]
  | cons a t ih =>
    simp only [List.cons_append, goTickers, List.append_eq]
    obtain ⟨h1, h2, h3⟩ := ih (processTicker fetch transport th test state a).1
    refine ⟨h1, ?_, ?_⟩
    · rw [alertsOf_append, alertsOf_append, h2]
    · rw [savesOf_append, savesOf_append, h3]

/-- Witness for C4: ticker `"Z"` resolves with a zero open; the cycle
`["A", "Z", "B"]` behaves exactly like `["A", "B"]`. -/
theorem zero_open_isolation_witness :
    (fetchZeroW "Z" = Except.error () ∨ ∃ l, fetchZeroW "Z" = Except.ok (0, l)) ∧
    ((∀ state, processTicker fetchZeroW trOkW 1 testOffW state "Z"
        = (state, [Eff.fetch "Z"])) ∧
     (∀ state l1 l2,
       (goTickers fetchZeroW trOkW 1 testOffW state (l1 ++ "Z" :: l2)).1
         = (goTickers fetchZeroW trOkW 1 testOffW state (l1 ++ l2)).1 ∧
       alertsOf (goTickers fetchZeroW trOkW 1 testOffW state (l1 ++ "Z" :: l2)).2
         = alertsOf (goTickers fetchZeroW trOkW 1 testOffW state (l1 ++ l2)).2 ∧
       savesOf (goTickers fetchZeroW trOkW 1 testOffW state (l1 ++ "Z" :: l2)).2
         = savesOf (goTickers fetchZeroW trOkW 1 testOffW state (l1 ++ l2)).2)) :=
  ⟨Or.inr ⟨5, rfl⟩,
    zero_open_isolation fetchZeroW trOkW 1 testOffW "Z" (Or.inr ⟨5, rfl⟩)⟩

/-- C5: `notify_ntfy` returns normally for every transport outcome and
performs no retry — zero outbound requests on a dry run, exactly one
otherwise; consequently the whole ticker loop is independent of the push
transport's outcomes, and when a cycle fires an alert the ticker's state is
latched to the fired direction and persisted even when the push failed. -/
theorem push_failure_no_retry :
    (∀ (transport : Except Unit Int) (dryRun : Bool),
      notify_ntfy transport dryRun = Except.ok (if dryRun then 0 else 1)) ∧
    (∀ (fetch : String → Except Unit (ℚ × ℚ)) (tr tr' : String → Except Unit Int)
       (th : ℚ) (test : TestCfg) (state0 : List (String × Dir)) (tks : List String),
      goTickers fetch tr th test state0 tks = goTickers fetch tr' th test state0 tks) ∧
    (∀ (fetch : String → Except Unit (ℚ × ℚ)) (tr : String → Except Unit Int)
       (th : ℚ) (test : TestCfg) (state : List (String × Dir)) (tk : String)
       (o l : ℚ) (d : Dir),
      fetch tk = Except.ok (o, l) → o ≠ 0 →
      stepEv th (dictGet state tk) (effPct test o l) = (d, Ev.fired d) →
      processTicker fetch tr th test state tk
        = (dictSet state tk d,
           [Eff.fetch tk, Eff.notify tk d (if test.dryRun then 0 else 1),
            Eff.saveState (dictSet state tk d)]) ∧
      dictGet (dictSet state tk d) tk = d) := by
  have h1 : ∀ (transport : Except Unit Int) (dryRun : Bool),
      notify_ntfy transport dryRun = Except.ok (if dryRun then 0 else 1) := by
    intro transport dryRun
    cases dryRun <;> cases transport <;> simp [notify_ntfy]
  have h2 : ∀ (fetch : String → Except Unit (ℚ × ℚ)) (tr tr' : String → Except Unit Int)
      (th : ℚ) (test : TestCfg) (state : List (String × Dir)) (tk : String),
      processTicker fetch tr th test state tk = processTicker fetch tr' th test state tk := by
    intro fetch tr tr' th test state tk
    simp only [processTicker]
    cases hf : fetch tk with
    | error e => rfl
    | ok pr =>
      obtain ⟨o, l⟩ := pr
      by_cases ho : o = 0
      · simp [ho]
      · simp only [ho, if_false]
        rcases stepEv th (dictGet state tk) (effPct test o l) with ⟨s', ev⟩
        cases ev with
        | fired d => rw [h1 (tr tk), h1 (tr' tk)]
        | reset => rfl
        | noop => rfl
  refine ⟨h1, ?_, ?_⟩
  · intro fetch tr tr' th test state0 tks
    induction tks generalizing state0 with
    | nil => rfl
    | cons a t ih =>
      simp only [goTickers]
      rw [h2 fetch tr tr' th test state0 a, ih]
  · intro fetch tr th test state tk o l d hf ho hs
    refine ⟨?_, dictGet_dictSet state tk d⟩
    simp only [processTicker, hf, ho, if_false, hs, h1 (tr tk) test.dryRun]

/-- Witness for C5: with a forced +5% delta, threshold 1 and a failing
transport, the alert for `"A"` still latches the state to up and persists
it. -/
theorem push_failure_no_retry_witness :
    fetchOkW "A" = Except.ok (100, 104) ∧ (100:ℚ) ≠ 0 ∧
    stepEv 1 (dictGet [] "A") (effPct testForceW 100 104) = (Dir.up, Ev.fired Dir.up) ∧
    (processTicker fetchOkW trFailW 1 testForceW [] "A"
       = (dictSet [] "A" Dir.up,
          [Eff.fetch "A", Eff.notify "A" Dir.up (if testForceW.dryRun then 0 else 1),
           Eff.saveState (dictSet [] "A" Dir.up)]) ∧
     dictGet (dictSet [] "A" Dir.up) "A" = Dir.up) :=
  ⟨rfl, by norm_num, by decide,
    push_failure_no_retry.2.2 fetchOkW trFailW 1 testForceW [] "A" 100 104 Dir.up
      rfl (by norm_num) (by decide)⟩

/-- C9: outside the configured trading-hours window without a test-mode
bypass, a cycle performs no side effects at all — the state file is neither
read nor written, no quote is resolved and no notification is dispatched;
with the bypass configured the cycle proceeds exactly as if within hours. -/
theorem market_hours_gate (fetch : String → Except Unit (ℚ × ℚ))
    (transport : String → Except Unit Int) (tickers : List String) (th : ℚ)
    (mh : MarketHoursCfg) (now : Clock) (test : TestCfg)
    (state0 : List (String × Dir)) :
    (is_market_hours mh now = false → (test.enabled && test.bypassMarketHours) = false →
      run_once fetch transport tickers th mh now test state0 = []) ∧
    ((test.enabled && test.bypassMarketHours) = true →
      run_once fetch transport tickers th mh now test state0
        = Eff.loadState :: (goTickers fetch transport th test state0 tickers).2) := by
  constructor
  · intro h1 h2
    simp [run_once, h1, h2]
  · intro h1
    simp [run_once, h1]

/-- Witness for C9: Saturday 10:00 with the Monday-Friday window and test
mode off yields an effect-free cycle. -/
theorem market_hours_gate_witness :
    is_market_hours mhW satW = false ∧
    (testOffW.enabled && testOffW.bypassMarketHours) = false ∧
    run_once fetchOkW trOkW ["A"] 1 mhW satW testOffW [] = [] :=
  ⟨by decide, by decide,
    (market_hours_gate fetchOkW trOkW ["A"] 1 mhW satW testOffW []).1
      (by decide) (by decide)⟩

lemma runCalls_first (resp : Nat → List Bar) :
    ∀ (plan : List String) (i j : Nat), j < plan.length →
      (∀ k, k < j → resp (i + k) = []) → resp (i + j) ≠ [] →
      runCalls resp plan i
        = (some (firstOpen (resp (i + j)), lastClose (resp (i + j))),
           plan.take (j + 1)) := by
  intro plan
  induction plan with
  | nil => intro i j hj; simp at hj
  | cons iv rest ih =>
    intro i j hj hk hne
    match j with
    | 0 =>
      rw [Nat.add_zero] at hne
      simp [runCalls, hne]
    | Nat.succ j' =>
      have h0 : resp i = [] := by simpa using hk 0 (Nat.succ_pos j')
      have hk' : ∀ k, k < j' → resp (i + 1 + k) = [] := by
        intro k hlt
        rw [show i + 1 + k = i + (k + 1) from by omega]
        exact hk (k + 1) (by omega)
      have hne' : resp (i + 1 + j') ≠ [] := by
        rw [show i + 1 + j' = i + (j' + 1) from by omega]
        exact hne
      have hr := ih (i + 1) j' (by simpa using hj) hk' hne'
      rw [show i + (j' + 1) = i + 1 + j' from by omega]
      simp [runCalls, h0, hr]

lemma runCalls_all_empty (resp : Nat → List Bar) :
    ∀ (plan : List String) (i : Nat),
      (∀ k, k < plan.length → resp (i + k) = []) →
      runCalls resp plan i = (Option.none, plan) := by
  intro plan
  induction plan with
  | nil => intro i _; rfl
  | cons iv rest ih =>
    intro i h
    have h0 : resp i = [] := by simpa using h 0 (Nat.succ_pos _)
    have h' : ∀ k, k < rest.length → resp (i + 1 + k) = [] := by
      intro k hlt
      rw [show i + 1 + k = i + (k + 1) from by omega]
      exact h (k + 1) (by simpa using Nat.succ_lt_succ hlt)
    simp [runCalls, h0, ih (i + 1) h']

lemma runCalls_ok (resp : Nat → List Bar) :
    ∀ (plan : List String) (i : Nat),
      (∃ k, k < plan.length ∧ resp (i + k) ≠ []) →
      (runCalls resp plan i).1 ≠ Option.none := by
  intro plan
  induction plan with
  | nil =>
    rintro i ⟨k, hk, _⟩
    simp at hk
  | cons iv rest ih =>
    rintro i ⟨k, hk, hne⟩
    by_cases h0 : resp i = []
    · have hk0 : k ≠ 0 := by
        rintro rfl
        rw [Nat.add_zero] at hne
        exact hne h0
      have hrec := ih (i + 1)
        ⟨k - 1, by simp at hk; omega,
         by rw [show i + 1 + (k - 1) = i + k from by omega]; exact hne⟩
      simpa [runCalls, h0] using hrec
    · simp [runCalls, h0]

/-- C3: the quote resolver tries the intraday granularities finest-first with
up to 2 attempts each; the first non-empty response `j` ends the search with
(open of the first sample, close of the most recent sample) and a request
trace that is exactly the plan up to `j` — no daily request; if all six
intraday attempts are empty, exactly one daily request is issued, its last
row's Open/Close become the result, and `NoDataError` is raised precisely
when that daily response is empty as well; a non-empty intraday response
excludes the error entirely. -/
theorem quote_resolver_spec (resp : Nat → List Bar) :
    (∀ j, j < 6 → (∀ k, k < j → resp k = []) → resp j ≠ [] →
      get_open_and_last resp
        = (Except.ok (firstOpen (resp j), lastClose (resp j)),
           intradayPlan.take (j + 1))) ∧
    ((∀ k, k < 6 → resp k = []) →
      (get_open_and_last resp).2 = intradayPlan ++ ["1d"] ∧
      (resp 6 ≠ [] →
        (get_open_and_last resp).1
          = Except.ok (lastOpen (resp 6), lastClose (resp 6))) ∧
      ((get_open_and_last resp).1 = Except.error () ↔ resp 6 = [])) ∧
    ((∃ k, k < 6 ∧ resp k ≠ []) →
      (get_open_and_last resp).1 ≠ Except.error ()) := by
  refine ⟨?_, ?_, ?_⟩
  · intro j hj hk hne
    have hr := runCalls_first resp intradayPlan 0 j (by simpa [intradayPlan] using hj)
      (by intro k hlt; simpa using hk k hlt) (by simpa using hne)
    simp only [Nat.zero_add] at hr
    simp [get_open_and_last, hr]
  · intro hall
    have hr := runCalls_all_empty resp intradayPlan 0
      (by intro k hlt; simpa using hall k (by simpa [intradayPlan] using hlt))
    by_cases h6 : resp 6 = [] <;> simp [get_open_and_last, hr, h6]
  · rintro ⟨k, hk, hne⟩
    have hok := runCalls_ok resp intradayPlan 0
      ⟨k, by simpa [intradayPlan] using hk, by simpa using hne⟩
    rcases hr : runCalls resp intradayPlan 0 with ⟨ores, tr⟩
    cases ores with
    | none => rw [hr] at hok; simp at hok
    | some pr => simp [get_open_and_last, hr]

/-- Witness for C3: only the third planned call (5m interval, first attempt)
returns data; the resolver answers with its first row's open and last row's
close and requested exactly 1m, 1m, 5m. -/
theorem quote_resolver_spec_witness :
    (2 < 6 ∧ (∀ k, k < 2 → respW k = []) ∧ respW 2 ≠ []) ∧
    get_open_and_last respW
      = (Except.ok (firstOpen (respW 2), lastClose (respW 2)),
         intradayPlan.take 3) :=
  ⟨⟨by norm_num, by decide, by decide⟩,
    (quote_resolver_spec respW).1 2 (by norm_num) (by decide) (by decide)⟩

lemma goEntries_eq (limit cutoff : Int) :
    ∀ (l : List Entry) (out : List Item), (out.length : Int) < limit →
      goEntries limit cutoff l out
        = out ++ (l.filterMap (toItem cutoff)).take (limit - out.length).toNat := by
  intro l
  induction l with
  | nil => intro out h; simp [goEntries]
  | cons e rest ih =>
    intro out h
    cases hp : e.pub with
    | some t =>
      by_cases ht : t < cutoff
      · have hnone : toItem cutoff e = Option.none := by simp [toItem, hp, ht]
        simp only [goEntries, hp, if_pos ht, List.filterMap_cons, hnone]
        exact ih out h
      · by_cases hv : strip e.title ≠ "" ∧ strip e.link ≠ ""
        · have hitem : toItem cutoff e
              = some ⟨strip e.title, e.source, strip e.link, some t⟩ := by
            simp only [toItem, hp, if_neg ht, if_pos hv]
          by_cases hb : limit ≤
              ((out ++ [(⟨strip e.title, e.source, strip e.link, some t⟩ : Item)]).length : Int)
          · have h1 : (limit - (out.length : Int)).toNat = 1 := by
              simp only [List.length_append, List.length_cons, List.length_nil] at hb
              omega
            simp only [goEntries, hp, if_neg ht, if_pos hv, if_pos hb,
              List.filterMap_cons, hitem, h1]
            simp
          · have hb2 := not_le.mp hb
            have ihh := ih (out ++ [(⟨strip e.title, e.source, strip e.link, some t⟩ : Item)]) hb2
            simp only [goEntries, hp, if_neg ht, if_pos hv, if_neg hb,
              List.filterMap_cons, hitem, ihh]
            have h2 : (limit - (out.length : Int)).toNat
                = (limit
                    - ((out ++ [(⟨strip e.title, e.source, strip e.link, some t⟩ : Item)]).length
                        : Int)).toNat + 1 := by
              simp only [List.length_append, List.length_cons, List.length_nil]
              push_cast
              omega
            rw [h2, List.take_succ_cons]
            simp
        · have hnone : toItem cutoff e = Option.none := by
            simp only [toItem, hp, if_neg ht, if_neg hv]
          have hb : ¬ limit ≤ (out.length : Int) := not_le.mpr h
          simp only [goEntries, hp, if_neg ht, if_neg hv, if_neg hb,
            List.filterMap_cons, hnone]
          exact ih out h
    | none =>
      by_cases hv : strip e.title ≠ "" ∧ strip e.link ≠ ""
      · have hitem : toItem cutoff e
            = some ⟨strip e.title, e.source, strip e.link, Option.none⟩ := by
          simp only [toItem, hp, if_pos hv]
        by_cases hb : limit ≤
            ((out ++ [(⟨strip e.title, e.source, strip e.link, Option.none⟩ : Item)]).length : Int)
        · have h1 : (limit - (out.length : Int)).toNat = 1 := by
            simp only [List.length_append, List.length_cons, List.length_nil] at hb
            omega
          simp only [goEntries, hp, if_pos hv, if_pos hb,
            List.filterMap_cons, hitem, h1]
          simp
        · have hb2 := not_le.mp hb
          have ihh := ih (out ++ [(⟨strip e.title, e.source, strip e.link, Option.none⟩ : Item)]) hb2
          simp only [goEntries, hp, if_pos hv, if_neg hb,
            List.filterMap_cons, hitem, ihh]
          have h2 : (limit - (out.length : Int)).toNat
              = (limit
                  - ((out ++ [(⟨strip e.title, e.source, strip e.link, Option.none⟩ : Item)]).length
                      : Int)).toNat + 1 := by
            simp only [List.length_append, List.length_cons, List.length_nil]
            push_cast
            omega
          rw [h2, List.take_succ_cons]
          simp
      · have hnone : toItem cutoff e = Option.none := by
          simp only [toItem, hp, if_neg hv]
        have hb : ¬ limit ≤ (out.length : Int) := not_le.mpr h
        simp only [goEntries, hp, if_neg hv, if_neg hb, List.filterMap_cons, hnone]
        exact ih out h

lemma toItem_published (cutoff : Int) (e : Entry) (it : Item)
    (h : toItem cutoff e = some it) :
    ∀ t, it.published = some t → cutoff ≤ t := by
  intro t hti
  cases hp : e.pub with
  | some t2 =>
    simp only [toItem, hp] at h
    split_ifs at h with h1 h2
    · obtain rfl := Option.some.inj h
      simp only at hti
      obtain rfl := Option.some.inj hti
      omega
  | none =>
    simp only [toItem, hp] at h
    split_ifs at h with h1
    · obtain rfl := Option.some.inj h
      simp at hti

/-- C6 fails as stated, on two counts: with limit 0 the loop appends one
item before the break check runs, so more than `limit` items are returned;
and an entry without a parseable publish time is returned (C10's behaviour),
so not every returned item "was published within lookback_hours of call
time". -/
theorem fetch_headlines_cex :
    ¬ (((fetch_headlines [entryNoTimeW] 0 0 12).length : Int) ≤ 0) ∧
    ¬ (∀ it ∈ fetch_headlines [entryNoTimeW] 1 0 12,
        ∃ t, it.published = some t ∧ 0 - 12 * 3600 ≤ t) := by
  constructor
  · decide
  · intro h
    rcases h ⟨"t", "s", "l", Option.none⟩ (by decide) with ⟨t, ht, _⟩
    simp at ht

/-- C6 (amended): for a positive limit, fetch_headlines returns at most
`limit` items; every returned item that carries a parsed publish time lies
within `lookback_hours` of call time (entries without a parseable time are
not subject to the cutoff); an entry whose parsed time is older than the
cutoff is skipped; only the first `max(10, limit*3)` feed entries are
examined; the result is the first `limit` qualifying items (the loop stops
as soon as they are collected); and a parse failure (no entries) yields the
empty list, so the caller never sees an exception. -/
theorem fetch_headlines_spec (entries : List Entry)
    (limit currentTime lookbackHours : Int) (hlim : 1 ≤ limit) :
    (fetch_headlines entries limit currentTime lookbackHours).length ≤ limit.toNat ∧
    (∀ it ∈ fetch_headlines entries limit currentTime lookbackHours,
      ∀ t, it.published = some t → currentTime - lookbackHours * 3600 ≤ t) ∧
    (∀ e, (∃ t, e.pub = some t ∧ t < currentTime - lookbackHours * 3600) →
      toItem (currentTime - lookbackHours * 3600) e = Option.none) ∧
    fetch_headlines entries limit currentTime lookbackHours
      = fetch_headlines (entries.take (max 10 (limit * 3)).toNat)
          limit currentTime lookbackHours ∧
    fetch_headlines entries limit currentTime lookbackHours
      = ((entries.take (max 10 (limit * 3)).toNat).filterMap
          (toItem (currentTime - lookbackHours * 3600))).take limit.toNat ∧
    fetch_headlines [] limit currentTime lookbackHours = [] := by
  have hchar : ∀ (l : List Entry),
      fetch_headlines l limit currentTime lookbackHours
        = ((l.take (max 10 (limit * 3)).toNat).filterMap
            (toItem (currentTime - lookbackHours * 3600))).take limit.toNat := by
    intro l
    unfold fetch_headlines
    rw [goEntries_eq limit (currentTime - lookbackHours * 3600)
      (l.take (max 10 (limit * 3)).toNat) [] (by simp; omega)]
    simp
  refine ⟨?_, ?_, ?_, ?_, hchar entries, by simp [fetch_headlines, goEntries]⟩
  · rw [hchar entries]
    simp [List.length_take]
  · intro it hit t hpt
    rw [hchar entries] at hit
    have hit2 := List.take_subset _ _ hit
    rcases List.mem_filterMap.mp hit2 with ⟨e, _, he⟩
    exact toItem_published _ e it he t hpt
  · rintro e ⟨t, hpe, hlt⟩
    simp [toItem, hpe, hlt]
  · rw [hchar entries, hchar (entries.take (max 10 (limit * 3)).toNat)]
    rw [List.take_take]
    simp

/-- Witness for C6 (amended) at limit 1 on a one-entry feed. -/
theorem fetch_headlines_spec_witness :
    (1 : Int) ≤ 1 ∧
    (fetch_headlines [entryNoTimeW] 1 0 12).length ≤ (1 : Int).toNat :=
  ⟨by norm_num, (fetch_headlines_spec [entryNoTimeW] 1 0 12 (by norm_num)).1⟩

lemma goEntries_mem_out (limit cutoff : Int) :
    ∀ (l : List Entry) (out : List Item) (x : Item), x ∈ out →
      x ∈ goEntries limit cutoff l out := by
  intro l
  induction l with
  | nil => intro out x hx; simpa [goEntries] using hx
  | cons e rest ih =>
    intro out x hx
    cases hp : e.pub with
    | some t =>
      by_cases ht : t < cutoff
      · simp only [goEntries, hp, if_pos ht]
        exact ih out x hx
      · simp only [goEntries, hp, if_neg ht]
        split_ifs <;> first
          | exact List.mem_append_left _ hx
          | exact ih _ x (List.mem_append_left _ hx)
          | exact hx
          | exact ih out x hx
    | none =>
      simp only [goEntries, hp]
      split_ifs <;> first
        | exact List.mem_append_left _ hx
        | exact ih _ x (List.mem_append_left _ hx)
        | exact hx
        | exact ih out x hx

lemma goEntries_cutoff_indep (limit c1 c2 : Int) :
    ∀ (l : List Entry), (∀ e ∈ l, e.pub = Option.none) →
      ∀ out, goEntries limit c1 l out = goEntries limit c2 l out := by
  intro l
  induction l with
  | nil => intro _ out; rfl
  | cons e rest ih =>
    intro hall out
    have hp : e.pub = Option.none := hall e (by simp)
    have hrest : ∀ x ∈ rest, x.pub = Option.none := fun x hx => hall x (by simp [hx])
    simp only [goEntries, hp]
    split_ifs <;> first
      | rfl
      | exact ih hrest _

lemma goEntries_pub_none (limit cutoff : Int) :
    ∀ (l : List Entry), (∀ e ∈ l, e.pub = Option.none) →
      ∀ (out : List Item), (∀ it ∈ out, it.published = Option.none) →
      ∀ it ∈ goEntries limit cutoff l out, it.published = Option.none := by
  intro l
  induction l with
  | nil => intro _ out hout; simpa [goEntries] using hout
  | cons e rest ih =>
    intro hall out hout
    have hp : e.pub = Option.none := hall e (by simp)
    have hrest : ∀ x ∈ rest, x.pub = Option.none := fun x hx => hall x (by simp [hx])
    have hout' : ∀ x ∈ out ++ [(⟨strip e.title, e.source, strip e.link, Option.none⟩ : Item)],
        x.published = Option.none := by
      intro x hx
      rcases List.mem_append.mp hx with hx2 | hx2
      · exact hout x hx2
      · simp at hx2
        subst hx2
        rfl
    simp only [goEntries, hp]
    split_ifs <;> first
      | exact hout'
      | exact ih hrest _ hout'
      | exact hout
      | exact ih hrest out hout

/-- C10: a feed entry without a parseable publish time is not subject to the
recency cutoff — its per-entry decision is independent of the cutoff, and
when it has a (stripped) title and link it contributes an item whose
published field is empty; an entry is excluded as too old only when it has a
parsed publish time older than the cutoff; consequently, on a feed with no
parseable publish times the result of fetch_headlines does not depend on the
lookback window at all, every returned item has an empty published field,
and the entry's item is in the result of its loop step. -/
theorem no_publish_time_bypasses_cutoff :
    (∀ (c1 c2 : Int) (e : Entry), e.pub = Option.none → toItem c1 e = toItem c2 e) ∧
    (∀ (c : Int) (e : Entry), e.pub = Option.none →
      strip e.title ≠ "" → strip e.link ≠ "" →
      toItem c e = some ⟨strip e.title, e.source, strip e.link, Option.none⟩) ∧
    (∀ (c : Int) (e : Entry), strip e.title ≠ "" → strip e.link ≠ "" →
      toItem c e = Option.none → ∃ t, e.pub = some t ∧ t < c) ∧
    (∀ (entries : List Entry) (limit ct lb ct2 lb2 : Int),
      (∀ e ∈ entries, e.pub = Option.none) →
      fetch_headlines entries limit ct lb = fetch_headlines entries limit ct2 lb2) ∧
    (∀ (entries : List Entry) (limit ct lb : Int),
      (∀ e ∈ entries, e.pub = Option.none) →
      ∀ it ∈ fetch_headlines entries limit ct lb, it.published = Option.none) ∧
    (∀ (limit c : Int) (e : Entry) (rest : List Entry) (out : List Item),
      e.pub = Option.none → strip e.title ≠ "" → strip e.link ≠ "" →
      (⟨strip e.title, e.source, strip e.link, Option.none⟩ : Item)
        ∈ goEntries limit c (e :: rest) out) := by
  refine ⟨?_, ?_, ?_, ?_, ?_, ?_⟩
  · intro c1 c2 e hp
    simp [toItem, hp]
  · intro c e hp h1 h2
    simp [toItem, hp, h1, h2]
  · intro c e h1 h2 hni
    cases hp : e.pub with
    | some t =>
      simp only [toItem, hp] at hni
      split_ifs at hni with hlt
      · exact ⟨t, rfl, hlt⟩
      · simp_all
    | none => simp [toItem, hp, h1, h2] at hni
  · intro entries limit ct lb ct2 lb2 hall
    unfold fetch_headlines
    exact goEntries_cutoff_indep limit _ _ _
      (fun e he => hall e (List.take_subset _ _ he)) []
  · intro entries limit ct lb hall
    unfold fetch_headlines
    exact goEntries_pub_none limit _ _
      (fun e he => hall e (List.take_subset _ _ he)) [] (by simp)
  · intro limit c e rest out hp h1 h2
    have hv : strip e.title ≠ "" ∧ strip e.link ≠ "" := ⟨h1, h2⟩
    simp only [goEntries, hp, if_pos hv]
    split_ifs
    · exact List.mem_append_right _ (by simp)
    · exact goEntries_mem_out limit c rest _ _ (List.mem_append_right _ (by simp))

/-- Witness for C10: on a feed whose only entry has no publish time, the
result is independent of the lookback window. -/
theorem no_publish_time_bypasses_cutoff_witness :
    (∀ e ∈ [entryNoTimeW], e.pub = Option.none) ∧
    fetch_headlines [entryNoTimeW] 5 0 12 = fetch_headlines [entryNoTimeW] 5 999 99 :=
  ⟨by decide,
    no_publish_time_bypasses_cutoff.2.2.2.1 [entryNoTimeW] 5 0 12 999 99 (by decide)⟩

/-- C7 fails as stated: with the keyword set `[""]` the empty keyword occurs
in every title (Python `"" in s` is always true), yet `filter_titles` drops
every item, because the comprehension `[k.lower() for k in required_keywords
if k]` discards empty keywords. -/
theorem filter_titles_cex :
    filter_titles [itemAW] [""]
      ≠ List.filter
          (fun it => [""].any (fun k => strContains (lower it.title) (lower k)))
          [itemAW] := by
  decide

/-- C7 (amended): with an empty keyword set `filter_titles` is the identity;
with a non-empty keyword set it keeps exactly those items whose title
contains, case-insensitively, at least one non-empty keyword of the set
(empty-string keywords are discarded before matching); and with a non-empty
keyword set none of whose elements occurs in any title it returns the empty
list. -/
theorem filter_titles_spec (items : List Item) (required_keywords : List String) :
    filter_titles items [] = items ∧
    (required_keywords ≠ [] →
      filter_titles items required_keywords
        = items.filter (fun it =>
            (required_keywords.filter (fun k => k ≠ "")).any
              (fun k => strContains (lower it.title) (lower k)))) ∧
    (required_keywords ≠ [] →
      (∀ k ∈ required_keywords, ∀ it ∈ items,
        strContains (lower it.title) (lower k) = false) →
      filter_titles items required_keywords = []) := by
  have hchar : required_keywords ≠ [] →
      filter_titles items required_keywords
        = items.filter (fun it =>
            (required_keywords.filter (fun k => k ≠ "")).any
              (fun k => strContains (lower it.title) (lower k))) := by
    intro hne
    unfold filter_titles
    rw [if_neg hne]
    show List.filter
        (fun it => ((required_keywords.filter (fun k => k ≠ "")).map lower).any
          (fun k => strContains (lower it.title) k)) items = _
    congr 1
    funext it
    rw [List.any_map]
    rfl
  refine ⟨by simp [filter_titles], hchar, ?_⟩
  intro hne hnomatch
  rw [hchar hne]
  rw [List.filter_eq_nil_iff]
  intro it hit
  simp only [List.any_eq_true, not_exists]
  rintro k ⟨hk, hck⟩
  have hk2 : k ∈ required_keywords := List.mem_of_mem_filter hk
  rw [hnomatch k hk2 it hit] at hck
  exact Bool.false_ne_true hck

/-- Witness for C7 (amended): the keyword `"A"` matches the title `"a"`
case-insensitively and the characterization holds on that input. -/
theorem filter_titles_spec_witness :
    (["A"] : List String) ≠ [] ∧
    filter_titles [itemAW] ["A"]
      = List.filter
          (fun it => (["A"].filter (fun k => k ≠ "")).any
            (fun k => strContains (lower it.title) (lower k)))
          [itemAW] :=
  ⟨by decide, (filter_titles_spec [itemAW] ["A"]).2.1 (by decide)⟩

/-- C8 fails as stated: for the scheme-less non-aggregator link
`"example.com"` the function does not return its input unmodified — it
returns the https-normalized form, because `_ensure_https` is applied before
anything else. -/
theorem extract_original_url_cex :
    extract_original_url probeW true "example.com" = "https://example.com" ∧
    "https://example.com" ≠ "example.com" := by
  decide

/-- C8 (amended): `extract_original_url` is total (every raised
`RequestException` is absorbed, the outer catch-all returns the link); on an
aggregator link with an embedded `url` parameter it returns that embedded
URL (https-normalized); on a non-aggregator link it returns the input link
https-normalized but otherwise unmodified; and on a network failure of the
HEAD probe — or of the GET fallback after the HEAD method was rejected with
403/405 — it likewise returns the https-normalized input link. -/
theorem extract_original_url_spec (pr : Probe) (link : String) :
    (hasSub (netlocOf (ensure_https link)) google_news_domain = false →
      extract_original_url pr true link = ensure_https link) ∧
    (∀ u, hasSub (netlocOf (ensure_https link)) google_news_domain = true →
      parse_qs_first_url (queryOf (ensure_https link)) = some u →
      extract_original_url pr true link = ensure_https (String.mk u)) ∧
    (hasSub (netlocOf (ensure_https link)) google_news_domain = true →
      parse_qs_first_url (queryOf (ensure_https link)) = Option.none →
      pr.headResp = Except.error () →
      extract_original_url pr true link = ensure_https link) ∧
    (∀ rurl status,
      hasSub (netlocOf (ensure_https link)) google_news_domain = true →
      parse_qs_first_url (queryOf (ensure_https link)) = Option.none →
      pr.headResp = Except.ok (rurl, status) →
      rurl ≠ "" → rurl ≠ ensure_https link →
      extract_original_url pr true link = ensure_https rurl) ∧
    (∀ rurl status,
      hasSub (netlocOf (ensure_https link)) google_news_domain = true →
      parse_qs_first_url (queryOf (ensure_https link)) = Option.none →
      pr.headResp = Except.ok (rurl, status) →
      (rurl = "" ∨ rurl = ensure_https link) →
      (status = 403 ∨ status = 405) →
      pr.getResp = Except.error () →
      extract_original_url pr true link = ensure_https link) := by
  refine ⟨?_, ?_, ?_, ?_, ?_⟩
  · intro hagg
    simp only [extract_original_url]
    rw [if_neg (by rw [hagg]; exact Bool.false_ne_true)]
  · intro u hagg hqs
    simp only [extract_original_url]
    rw [if_pos hagg, hqs]
  · intro hagg hqs hhead
    simp only [extract_original_url]
    rw [if_pos hagg, hqs, hhead]
    simp
  · intro rurl status hagg hqs hhead hne hne2
    simp only [extract_original_url]
    rw [if_pos hagg, hqs, hhead]
    simp only [if_true]
    rw [if_pos ⟨hne, hne2⟩]
  · intro rurl status hagg hqs hhead hurl hstatus hget
    have hcond : ¬ (rurl ≠ "" ∧ rurl ≠ ensure_https link) := by
      rcases hurl with h | h <;> simp [h]
    simp only [extract_original_url]
    rw [if_pos hagg, hqs, hhead]
    simp only [if_true]
    rw [if_neg hcond, if_pos hstatus, hget]

/-- Witness for C8 (amended): the Google-News link `gLinkW` carries an
embedded `url` parameter, which is returned. -/
theorem extract_original_url_spec_witness :
    hasSub (netlocOf (ensure_https gLinkW)) google_news_domain = true ∧
    parse_qs_first_url (queryOf (ensure_https gLinkW))
      = some "https://example.org/a".toList ∧
    extract_original_url probeW true gLinkW
      = ensure_https (String.mk "https://example.org/a".toList) :=
  ⟨by decide, by decide,
    (extract_original_url_spec probeW gLinkW).2.1 "https://example.org/a".toList
      (by decide) (by decide)⟩

end StockNotifier
